import Mathlib

/-!
Verification of the TOML materializer (`src/c4/yml/parse_toml.cpp`).

The materializer `convert_toml_value` walks a parsed TOML value hierarchy
(produced by the external toml++ library) and deposits equivalent nodes into
a ryml `Tree`.  We embed the materializer shallowly: the TOML value hierarchy
becomes the inductive `TomlValue`, the destination tree becomes the flat,
index-addressed `Tree` structure with an append-only text arena, and each
tree-mutation primitive used by the materializer is modelled explicitly.

Text is modelled as `List Char`.  Committed text is represented by `Span`
values: either the null span (the C++ `csubstr{}`) or an offset/length pair
into the tree's arena.  This makes arena ownership a provable property: a
span can only ever point into the arena.
-/

set_option maxHeartbeats 1000000

namespace TomlRyml

/-- Text, as stored in keys, values and the arena. -/
abbrev Chars := List Char

/-- Node kinds of the destination tree: unset (fresh node), map, sequence,
keyed scalar (`to_keyval`), keyless scalar (`to_val`). -/
inductive NodeKind where
  | unset
  | map
  | seq
  | keyval
  | scalarval
deriving DecidableEq, Repr

/-- A text span as committed into a destination node: either the null
`csubstr{}` or a slice of the destination tree's arena, given by offset and
length.  The model has no constructor for a pointer into source-owned
memory, mirroring that the materializer routes all committed text through
`to_arena`. -/
inductive Span where
  | null
  | sub (off : Nat) (len : Nat)
deriving DecidableEq, Repr

/-- Modelled from the spec: a destination node of the tree (kind, optional
key, optional value, the `VAL_DQUO` style flag, ordered children ids).
`kassign` instruments the node with the number of times its kind has been
reassigned by `to_map`/`to_seq`/`to_keyval`/`to_val`. -/
structure TNode where
  kind : NodeKind
  key : Option Span
  val : Option Span
  dquo : Bool
  children : List Nat
  kassign : Nat
deriving DecidableEq, Repr

/-- A fresh, unset node as produced by `append_child`. -/
def TNode.fresh : TNode :=
  { kind := .unset, key := none, val := none, dquo := false, children := [], kassign := 0 }

instance : Inhabited TNode := ⟨TNode.fresh⟩

/-- Modelled from the spec: the destination tree, a flat list of nodes
addressed by index, plus the append-only text arena. -/
structure Tree where
  nodes : List TNode
  arena : Chars
deriving DecidableEq, Repr

namespace Tree

/-- Number of nodes. -/
def len (t : Tree) : Nat := t.nodes.length

/-- Read a node by id (out-of-range reads give the fresh node). -/
def getNode (t : Tree) (id : Nat) : TNode := t.nodes.getD id TNode.fresh

/-- Replace the node at `id`. -/
def setNode (t : Tree) (id : Nat) (n : TNode) : Tree :=
  { t with nodes := t.nodes.set id n }

/-- Modelled from the spec: `Tree::alloc_arena` followed by `memcpy` —
append the bytes to the arena and return the tree plus a stable span. -/
def allocArena (t : Tree) (s : Chars) : Tree × Span :=
  ({ t with arena := t.arena ++ s }, .sub t.arena.length s.length)

/-- Modelled from the spec: `Tree::has_key` — whether the KEY flag is set
(the node carries a key, possibly the null span). -/
def hasKey (t : Tree) (id : Nat) : Bool := (t.getNode id).key.isSome

/-- Modelled from the spec: `Tree::key` — the node's key span. -/
def keyOf (t : Tree) (id : Nat) : Span := (t.getNode id).key.getD .null

/-- Modelled from the spec: `Tree::to_map` — reassign the node as a map,
with (`some`) or without (`none`) a key; the value is cleared. -/
def toMap (t : Tree) (id : Nat) (k : Option Span) : Tree :=
  let n := t.getNode id
  t.setNode id { n with kind := .map, key := k, val := none, dquo := false,
                        kassign := n.kassign + 1 }

/-- Modelled from the spec: `Tree::to_seq` — reassign the node as a
sequence, with or without a key; the value is cleared. -/
def toSeq (t : Tree) (id : Nat) (k : Option Span) : Tree :=
  let n := t.getNode id
  t.setNode id { n with kind := .seq, key := k, val := none, dquo := false,
                        kassign := n.kassign + 1 }

/-- Modelled from the spec: `Tree::to_keyval` — reassign the node as a
keyed scalar carrying key `k` and value `v`. -/
def toKeyval (t : Tree) (id : Nat) (k : Span) (v : Span) : Tree :=
  let n := t.getNode id
  t.setNode id { n with kind := .keyval, key := some k, val := some v, dquo := false,
                        kassign := n.kassign + 1 }

/-- Modelled from the spec: `Tree::to_val` — reassign the node as a keyless
scalar carrying value `v`. -/
def toVal (t : Tree) (id : Nat) (v : Span) : Tree :=
  let n := t.getNode id
  t.setNode id { n with kind := .scalarval, key := none, val := some v, dquo := false,
                        kassign := n.kassign + 1 }

/-- Modelled from the spec: `Tree::_add_flags(node, VAL_DQUO)` — tag the
node with the was-quoted marker. -/
def addDquo (t : Tree) (id : Nat) : Tree :=
  let n := t.getNode id
  t.setNode id { n with dquo := true }

/-- Modelled from the spec: `Tree::append_child` — allocate a fresh node
under `pid` and return its id. -/
def appendChild (t : Tree) (pid : Nat) : Tree × Nat :=
  let cid := t.nodes.length
  let p := t.getNode pid
  let t1 := t.setNode pid { p with children := p.children ++ [cid] }
  ({ t1 with nodes := t1.nodes ++ [TNode.fresh] }, cid)

end Tree

/-- `to_arena`: copy a string view into the tree's arena; the empty view
yields the null span without allocating (parse_toml.cpp lines 20–27). -/
def to_arena (t : Tree) (s : Chars) : Tree × Span :=
  if s.isEmpty then (t, .null) else t.allocArena s

/-- The abstract state of a toml++ floating-point value, as the materializer
observes it: positive infinity, negative infinity, NaN (with its sign bit,
which the materializer never reads), or a finite value abstracted by the
text the host `ostringstream` conversion produces for it. -/
inductive TFloat where
  | pinf
  | ninf
  | nan (sign : Bool)
  | finite (repr : Chars)
deriving DecidableEq, Repr

mutual
/-- The TOML source value hierarchy, as exposed by toml++: tables (ordered
key/value members), arrays (ordered elements), and the scalar kinds.
Date/time/datetime scalars are abstracted by the text their upstream
stringification produces. -/
inductive TomlValue where
  | table (ms : Members)
  | array (es : Elems)
  | str (s : Chars)
  | integer (i : Int)
  | float (f : TFloat)
  | boolean (b : Bool)
  | date (repr : Chars)
  | time (repr : Chars)
  | datetime (repr : Chars)
inductive Members where
  | nil
  | cons (k : Chars) (v : TomlValue) (rest : Members)
inductive Elems where
  | nil
  | cons (v : TomlValue) (rest : Elems)
end

/-- Decimal signed representation of an `int64_t` as produced by
`ostringstream <<`. -/
def intRepr (i : Int) : Chars := (toString i).data

/-- `ss << value` for each scalar, then commit keyed or keyless
(the common tail of every scalar branch of `convert_toml_value`). -/
def commitVal (t : Tree) (id : Nat) (v : Span) : Tree :=
  if t.hasKey id then t.toKeyval id (t.keyOf id) v else t.toVal id v

/-- `scalar_to_arena` followed by the keyed/keyless commit. -/
def scalarCommit (t : Tree) (id : Nat) (s : Chars) : Tree :=
  let p := to_arena t s
  commitVal p.1 id p.2

mutual
/-- The materializer `convert_toml_value` (parse_toml.cpp lines 40–191),
together with its per-branch loops over table members and array elements. -/
def convert : TomlValue → Tree → Nat → Tree
  | .table ms, t, id =>
    let t1 := if t.hasKey id then t.toMap id (some (t.keyOf id)) else t.toMap id none
    convertMembers ms t1 id
  | .array es, t, id =>
    let t1 := if t.hasKey id then t.toSeq id (some (t.keyOf id)) else t.toSeq id none
    convertElems es t1 id
  | .str s, t, id =>
    let t1 := scalarCommit t id s
    t1.addDquo id
  | .integer i, t, id => scalarCommit t id (intRepr i)
  | .float .pinf, t, id => scalarCommit t id ['.', 'i', 'n', 'f']
  | .float .ninf, t, id => scalarCommit t id ['-', '.', 'i', 'n', 'f']
  | .float (.nan _), t, id => scalarCommit t id ['.', 'n', 'a', 'n']
  | .float (.finite r), t, id => scalarCommit t id r
  | .boolean true, t, id => scalarCommit t id ['t', 'r', 'u', 'e']
  | .boolean false, t, id => scalarCommit t id ['f', 'a', 'l', 's', 'e']
  | .date r, t, id => scalarCommit t id r
  | .time r, t, id => scalarCommit t id r
  | .datetime r, t, id => scalarCommit t id r
def convertMembers : Members → Tree → Nat → Tree
  | .nil, t, _ => t
  | .cons k v rest, t, id =>
    let p := t.appendChild id
    let q := to_arena p.1 k
    let t3 := q.1.toKeyval p.2 q.2 .null
    let t4 := convert v t3 p.2
    convertMembers rest t4 id
def convertElems : Elems → Tree → Nat → Tree
  | .nil, t, _ => t
  | .cons v rest, t, id =>
    let p := t.appendChild id
    let t2 := convert v p.1 p.2
    convertElems rest t2 id
end

/-- Resolve a span against an arena: the null span reads as the empty text. -/
def readSpan (arena : Chars) : Span → Chars
  | .null => []
  | .sub off len => (arena.drop off).take len

/-- One past the last arena index a span touches. -/
def Span.stop : Span → Nat
  | .null => 0
  | .sub off len => off + len

/-- A span lies within the given arena. -/
def spanWF (arena : Chars) (s : Span) : Prop := s.stop ≤ arena.length

/-- Node well-formedness: children ids below `bound`, key and value spans
inside `arena`. -/
def nodeWF (bound : Nat) (arena : Chars) (n : TNode) : Prop :=
  (∀ c ∈ n.children, c < bound) ∧
  spanWF arena (n.key.getD .null) ∧ spanWF arena (n.val.getD .null)

/-- Tree well-formedness: every node is well-formed. -/
def Tree.wf (t : Tree) : Prop := ∀ n ∈ t.nodes, nodeWF t.len t.arena n

/-- A destination subtree with spans resolved to text, as read back from the
tree: kind, key text, value text, was-quoted flag, children in order. -/
inductive DTree where
  | node (kind : NodeKind) (key : Option Chars) (val : Option Chars)
      (dquo : Bool) (children : List DTree)
deriving Repr

/-- The kind of the `DTree` root. -/
def DTree.kindOf : DTree → NodeKind
  | .node k _ _ _ _ => k

/-- The key text of the `DTree` root. -/
def DTree.keyOf : DTree → Option Chars
  | .node _ k _ _ _ => k

/-- The value text of the `DTree` root. -/
def DTree.valOf : DTree → Option Chars
  | .node _ _ v _ _ => v

/-- The was-quoted flag of the `DTree` root. -/
def DTree.dquoOf : DTree → Bool
  | .node _ _ _ d _ => d

/-- The children of the `DTree` root. -/
def DTree.childrenOf : DTree → List DTree
  | .node _ _ _ _ cs => cs

/-- Read back the subtree rooted at `id`, resolving spans against the arena.
`fuel` bounds the recursion depth through the flat node store. -/
def Tree.extract (t : Tree) : Nat → Nat → DTree
  | 0, _ => .node .unset none none false []
  | fuel + 1, id =>
    let n := t.getNode id
    .node n.kind (n.key.map (readSpan t.arena)) (n.val.map (readSpan t.arena))
      n.dquo (n.children.map (t.extract fuel))

/-- Spec-side scalar kind: keyed scalar when a key is present. -/
def specScalarKind (k : Option Chars) : NodeKind :=
  if k.isSome then .keyval else .scalarval

/-- Spec-side canonical float text: positive infinity is `.inf`, negative
infinity is `-.inf`, NaN is `.nan` whatever its sign, and a finite value
keeps the host conversion's text. -/
def specFloatText : TFloat → Chars
  | .pinf => ".inf".data
  | .ninf => "-.inf".data
  | .nan _ => ".nan".data
  | .finite r => r

mutual
/-- Spec-side denotation of materialization ("structural homomorphism"):
the destination subtree a source value must produce when the target node
carries key `k` — a table becomes a map node with one keyed child per member
in order, an array a sequence node with one keyless child per element in
order, a scalar a childless scalar node with its canonical text (strings
carrying the was-quoted flag). -/
def specTree : TomlValue → Option Chars → DTree
  | .table ms, k => .node .map k none false (specMembers ms)
  | .array es, k => .node .seq k none false (specElems es)
  | .str s, k => .node (specScalarKind k) k (some s) true []
  | .integer i, k => .node (specScalarKind k) k (some (intRepr i)) false []
  | .float f, k => .node (specScalarKind k) k (some (specFloatText f)) false []
  | .boolean b, k =>
    .node (specScalarKind k) k (some (if b then "true".data else "false".data)) false []
  | .date r, k => .node (specScalarKind k) k (some r) false []
  | .time r, k => .node (specScalarKind k) k (some r) false []
  | .datetime r, k => .node (specScalarKind k) k (some r) false []
/-- Spec-side denotation of a table's member list. -/
def specMembers : Members → List DTree
  | .nil => []
  | .cons k v rest => specTree v (some k) :: specMembers rest
/-- Spec-side denotation of an array's element list. -/
def specElems : Elems → List DTree
  | .nil => []
  | .cons v rest => specTree v none :: specElems rest
end

mutual
/-- Nesting height of a source value (extraction fuel needed). -/
def heightV : TomlValue → Nat
  | .table ms => heightM ms + 1
  | .array es => heightE es + 1
  | .str _ => 1
  | .integer _ => 1
  | .float _ => 1
  | .boolean _ => 1
  | .date _ => 1
  | .time _ => 1
  | .datetime _ => 1
/-- Fuel needed by the children of a table node. -/
def heightM : Members → Nat
  | .nil => 0
  | .cons _ v rest => max (heightV v) (heightM rest)
/-- Fuel needed by the children of a sequence node. -/
def heightE : Elems → Nat
  | .nil => 0
  | .cons v rest => max (heightV v) (heightE rest)
end

/-! ### Lemmas about the tree primitives -/

theorem Tree.len_setNode (t : Tree) (id : Nat) (n : TNode) :
    (t.setNode id n).len = t.len := by
  simp [Tree.setNode, Tree.len]

theorem Tree.arena_setNode (t : Tree) (id : Nat) (n : TNode) :
    (t.setNode id n).arena = t.arena := rfl

theorem Tree.getNode_setNode_self (t : Tree) (id : Nat) (n : TNode) (h : id < t.len) :
    (t.setNode id n).getNode id = n := by
  simp only [Tree.len] at h
  simp [Tree.setNode, Tree.getNode, List.getD, List.getElem?_set, h]

theorem Tree.getNode_setNode_ne (t : Tree) (id j : Nat) (n : TNode) (h : j ≠ id) :
    (t.setNode id n).getNode j = t.getNode j := by
  have h' : id ≠ j := fun hh => h hh.symm
  simp [Tree.setNode, Tree.getNode, List.getD, List.getElem?_set, h']

theorem Tree.getNode_oob (t : Tree) (id : Nat) (h : t.len ≤ id) :
    t.getNode id = TNode.fresh := by
  have : t.nodes[id]? = none := by
    rw [List.getElem?_eq_none_iff]
    exact h
  simp [Tree.getNode, List.getD, this]

/-- Out-of-range node reads are well-formed for any bound and arena. -/
theorem nodeWF_fresh (bound : Nat) (arena : Chars) : nodeWF bound arena TNode.fresh := by
  constructor
  · intro c hc; simp [TNode.fresh] at hc
  · constructor <;> simp [TNode.fresh, spanWF, Span.stop]

theorem Tree.wf_getNode (t : Tree) (id : Nat) (hwf : t.wf) :
    nodeWF t.len t.arena (t.getNode id) := by
  by_cases h : id < t.len
  · have h' : id < t.nodes.length := h
    have heq : t.getNode id = t.nodes[id] := by
      simp [Tree.getNode, List.getD, List.getElem?_eq_getElem h']
    rw [heq]
    exact hwf _ (List.getElem_mem h')
  · rw [Tree.getNode_oob t id (Nat.le_of_not_lt h)]
    exact nodeWF_fresh _ _

theorem nodeWF_mono {b b' : Nat} {a r : Chars} {n : TNode} (hb : b ≤ b')
    (h : nodeWF b a n) : nodeWF b' (a ++ r) n := by
  obtain ⟨h1, h2, h3⟩ := h
  refine ⟨fun c hc => Nat.lt_of_lt_of_le (h1 c hc) hb, ?_, ?_⟩
  · simp [spanWF] at h2 ⊢; omega
  · simp [spanWF] at h3 ⊢; omega

theorem Tree.wf_setNode {t : Tree} {id : Nat} {n : TNode} (hwf : t.wf)
    (hn : nodeWF t.len t.arena n) : (t.setNode id n).wf := by
  intro m hm
  rw [Tree.len_setNode, Tree.arena_setNode]
  rcases List.mem_or_eq_of_mem_set hm with h | h
  · exact hwf m h
  · rw [h]; exact hn

/-! ### `readSpan` stability under arena growth -/

theorem readSpan_append {a : Chars} (r : Chars) {s : Span} (h : spanWF a s) :
    readSpan (a ++ r) s = readSpan a s := by
  cases s with
  | null => rfl
  | sub off len =>
    simp [spanWF, Span.stop] at h
    simp [readSpan]
    rw [List.drop_append_of_le_length (by omega)]
    rw [List.take_append_of_le_length (by simp; omega)]

theorem readSpan_alloc (a s : Chars) :
    readSpan (a ++ s) (.sub a.length s.length) = s := by
  simp [readSpan]

/-! ### `to_arena` -/

theorem to_arena_nodes (t : Tree) (s : Chars) : (to_arena t s).1.nodes = t.nodes := by
  unfold to_arena
  split <;> rfl

theorem to_arena_len (t : Tree) (s : Chars) : (to_arena t s).1.len = t.len := by
  simp [Tree.len, to_arena_nodes]

theorem to_arena_arena (t : Tree) (s : Chars) :
    ∃ r, (to_arena t s).1.arena = t.arena ++ r := by
  unfold to_arena
  split
  · exact ⟨[], by simp⟩
  · exact ⟨s, rfl⟩

theorem to_arena_read (t : Tree) (s : Chars) :
    readSpan (to_arena t s).1.arena (to_arena t s).2 = s := by
  unfold to_arena
  split
  · next h => simp [readSpan, List.isEmpty_iff.mp h]
  · exact readSpan_alloc t.arena s

theorem to_arena_spanWF (t : Tree) (s : Chars) :
    spanWF (to_arena t s).1.arena (to_arena t s).2 := by
  unfold to_arena
  split
  · simp [spanWF, Span.stop]
  · simp [Tree.allocArena, spanWF, Span.stop]

theorem to_arena_wf {t : Tree} (s : Chars) (hwf : t.wf) : (to_arena t s).1.wf := by
  intro n hn
  rw [to_arena_nodes] at hn
  rw [to_arena_len]
  obtain ⟨r, hr⟩ := to_arena_arena t s
  rw [hr]
  exact nodeWF_mono (Nat.le_refl _) (hwf n hn)

/-! ### `append_child` -/

theorem Tree.appendChild_snd (t : Tree) (pid : Nat) : (t.appendChild pid).2 = t.len := rfl

theorem Tree.appendChild_len (t : Tree) (pid : Nat) :
    (t.appendChild pid).1.len = t.len + 1 := by
  simp [Tree.appendChild, Tree.len, Tree.setNode]

theorem Tree.appendChild_arena (t : Tree) (pid : Nat) :
    (t.appendChild pid).1.arena = t.arena := rfl

theorem Tree.appendChild_eq (t : Tree) (pid : Nat) :
    t.appendChild pid
      = ({ nodes := (t.setNode pid { t.getNode pid with
              children := (t.getNode pid).children ++ [t.len] }).nodes ++ [TNode.fresh],
           arena := t.arena }, t.len) := rfl

theorem Tree.appendChild_getNode_new (t : Tree) (pid : Nat) :
    (t.appendChild pid).1.getNode t.len = TNode.fresh := by
  rw [Tree.appendChild_eq]
  simp only [Tree.getNode, List.getD, List.get?_eq_getElem?]
  rw [List.getElem?_append_right (by simp [Tree.setNode, Tree.len])]
  simp [Tree.setNode, Tree.len]

theorem Tree.appendChild_getNode_lt (t : Tree) (pid j : Nat) (hj : j < t.len) (hne : j ≠ pid) :
    (t.appendChild pid).1.getNode j = t.getNode j := by
  rw [Tree.appendChild_eq]
  simp only [Tree.getNode, List.getD, List.get?_eq_getElem?]
  rw [List.getElem?_append_left (by simpa [Tree.setNode, Tree.len] using hj)]
  have h' : pid ≠ j := fun hh => hne hh.symm
  simp [Tree.setNode, List.getElem?_set, h']

theorem Tree.appendChild_getNode_pid (t : Tree) (pid : Nat) (hp : pid < t.len) :
    (t.appendChild pid).1.getNode pid
      = { t.getNode pid with children := (t.getNode pid).children ++ [t.len] } := by
  rw [Tree.appendChild_eq]
  simp only [Tree.getNode, List.getD, List.get?_eq_getElem?]
  rw [List.getElem?_append_left (by simpa [Tree.setNode, Tree.len] using hp)]
  have hp' : pid < t.nodes.length := hp
  simp [Tree.setNode, List.getElem?_set, hp']

theorem Tree.appendChild_wf {t : Tree} {pid : Nat} (hwf : t.wf) :
    (t.appendChild pid).1.wf := by
  intro n hn
  rw [Tree.appendChild_len]
  rw [Tree.appendChild_eq] at hn ⊢
  simp only at hn ⊢
  rcases List.mem_append.mp hn with hn | hn
  · rcases List.mem_or_eq_of_mem_set hn with h | h
    · have := hwf n h
      have := @nodeWF_mono _ (t.len + 1) _ [] _ (Nat.le_succ _) this
      simpa using this
    · subst h
      have hp := Tree.wf_getNode t pid hwf
      refine ⟨?_, hp.2.1, hp.2.2⟩
      intro c hc
      simp at hc
      rcases hc with hc | hc
      · exact Nat.lt_succ_of_lt (hp.1 c hc)
      · subst hc; exact Nat.lt_succ_self _
  · simp at hn
    subst hn
    exact nodeWF_fresh _ _

/-! ### Kind-reassignment primitives -/

theorem Tree.toMap_len (t : Tree) (id : Nat) (k : Option Span) :
    (t.toMap id k).len = t.len := Tree.len_setNode ..

theorem Tree.toMap_arena (t : Tree) (id : Nat) (k : Option Span) :
    (t.toMap id k).arena = t.arena := rfl

theorem Tree.toMap_getNode_ne (t : Tree) (id j : Nat) (k : Option Span) (h : j ≠ id) :
    (t.toMap id k).getNode j = t.getNode j := Tree.getNode_setNode_ne _ _ _ _ h

theorem Tree.toMap_getNode_self (t : Tree) (id : Nat) (k : Option Span) (h : id < t.len) :
    (t.toMap id k).getNode id
      = { t.getNode id with kind := .map, key := k, val := none, dquo := false,
                            kassign := (t.getNode id).kassign + 1 } :=
  Tree.getNode_setNode_self _ _ _ h

theorem Tree.toMap_wf {t : Tree} {id : Nat} {k : Option Span} (hwf : t.wf)
    (hk : spanWF t.arena (k.getD .null)) : (t.toMap id k).wf := by
  apply Tree.wf_setNode hwf
  have h := Tree.wf_getNode t id hwf
  exact ⟨h.1, hk, by simp [spanWF, Span.stop]⟩

theorem Tree.toSeq_len (t : Tree) (id : Nat) (k : Option Span) :
    (t.toSeq id k).len = t.len := Tree.len_setNode ..

theorem Tree.toSeq_arena (t : Tree) (id : Nat) (k : Option Span) :
    (t.toSeq id k).arena = t.arena := rfl

theorem Tree.toSeq_getNode_ne (t : Tree) (id j : Nat) (k : Option Span) (h : j ≠ id) :
    (t.toSeq id k).getNode j = t.getNode j := Tree.getNode_setNode_ne _ _ _ _ h

theorem Tree.toSeq_getNode_self (t : Tree) (id : Nat) (k : Option Span) (h : id < t.len) :
    (t.toSeq id k).getNode id
      = { t.getNode id with kind := .seq, key := k, val := none, dquo := false,
                            kassign := (t.getNode id).kassign + 1 } :=
  Tree.getNode_setNode_self _ _ _ h

theorem Tree.toSeq_wf {t : Tree} {id : Nat} {k : Option Span} (hwf : t.wf)
    (hk : spanWF t.arena (k.getD .null)) : (t.toSeq id k).wf := by
  apply Tree.wf_setNode hwf
  have h := Tree.wf_getNode t id hwf
  exact ⟨h.1, hk, by simp [spanWF, Span.stop]⟩

theorem Tree.toKeyval_len (t : Tree) (id : Nat) (k v : Span) :
    (t.toKeyval id k v).len = t.len := Tree.len_setNode ..

theorem Tree.toKeyval_arena (t : Tree) (id : Nat) (k v : Span) :
    (t.toKeyval id k v).arena = t.arena := rfl

theorem Tree.toKeyval_getNode_ne (t : Tree) (id j : Nat) (k v : Span) (h : j ≠ id) :
    (t.toKeyval id k v).getNode j = t.getNode j := Tree.getNode_setNode_ne _ _ _ _ h

theorem Tree.toKeyval_getNode_self (t : Tree) (id : Nat) (k v : Span) (h : id < t.len) :
    (t.toKeyval id k v).getNode id
      = { t.getNode id with kind := .keyval, key := some k, val := some v, dquo := false,
                            kassign := (t.getNode id).kassign + 1 } :=
  Tree.getNode_setNode_self _ _ _ h

theorem Tree.toKeyval_wf {t : Tree} {id : Nat} {k v : Span} (hwf : t.wf)
    (hk : spanWF t.arena k) (hv : spanWF t.arena v) : (t.toKeyval id k v).wf := by
  apply Tree.wf_setNode hwf
  have h := Tree.wf_getNode t id hwf
  exact ⟨h.1, hk, hv⟩

theorem Tree.toVal_len (t : Tree) (id : Nat) (v : Span) :
    (t.toVal id v).len = t.len := Tree.len_setNode ..

theorem Tree.toVal_arena (t : Tree) (id : Nat) (v : Span) :
    (t.toVal id v).arena = t.arena := rfl

theorem Tree.toVal_getNode_ne (t : Tree) (id j : Nat) (v : Span) (h : j ≠ id) :
    (t.toVal id v).getNode j = t.getNode j := Tree.getNode_setNode_ne _ _ _ _ h

theorem Tree.toVal_getNode_self (t : Tree) (id : Nat) (v : Span) (h : id < t.len) :
    (t.toVal id v).getNode id
      = { t.getNode id with kind := .scalarval, key := none, val := some v, dquo := false,
                            kassign := (t.getNode id).kassign + 1 } :=
  Tree.getNode_setNode_self _ _ _ h

theorem Tree.toVal_wf {t : Tree} {id : Nat} {v : Span} (hwf : t.wf)
    (hv : spanWF t.arena v) : (t.toVal id v).wf := by
  apply Tree.wf_setNode hwf
  have h := Tree.wf_getNode t id hwf
  exact ⟨h.1, by simp [spanWF, Span.stop], hv⟩

theorem Tree.addDquo_len (t : Tree) (id : Nat) : (t.addDquo id).len = t.len :=
  Tree.len_setNode ..

theorem Tree.addDquo_arena (t : Tree) (id : Nat) : (t.addDquo id).arena = t.arena := rfl

theorem Tree.addDquo_getNode_ne (t : Tree) (id j : Nat) (h : j ≠ id) :
    (t.addDquo id).getNode j = t.getNode j := Tree.getNode_setNode_ne _ _ _ _ h

theorem Tree.addDquo_getNode_self (t : Tree) (id : Nat) (h : id < t.len) :
    (t.addDquo id).getNode id = { t.getNode id with dquo := true } :=
  Tree.getNode_setNode_self _ _ _ h

theorem Tree.addDquo_wf {t : Tree} {id : Nat} (hwf : t.wf) : (t.addDquo id).wf := by
  apply Tree.wf_setNode hwf
  have h := Tree.wf_getNode t id hwf
  exact ⟨h.1, h.2.1, h.2.2⟩

theorem to_arena_getNode (t : Tree) (s : Chars) (id : Nat) :
    (to_arena t s).1.getNode id = t.getNode id := by
  simp [Tree.getNode, to_arena_nodes]

/-- The key text carried by a node: its key span resolved in the arena. -/
def Tree.keyText (t : Tree) (id : Nat) : Option Chars :=
  (t.getNode id).key.map (readSpan t.arena)

/-- The two branches of the table case collapse: `to_map` receives exactly
the node's current key option. -/
theorem table_branch_eq (t : Tree) (id : Nat) :
    (if t.hasKey id then t.toMap id (some (t.keyOf id)) else t.toMap id none)
      = t.toMap id (t.getNode id).key := by
  cases hk : (t.getNode id).key <;> simp [Tree.hasKey, Tree.keyOf, hk]

/-- The two branches of the array case collapse: `to_seq` receives exactly
the node's current key option. -/
theorem seq_branch_eq (t : Tree) (id : Nat) :
    (if t.hasKey id then t.toSeq id (some (t.keyOf id)) else t.toSeq id none)
      = t.toSeq id (t.getNode id).key := by
  cases hk : (t.getNode id).key <;> simp [Tree.hasKey, Tree.keyOf, hk]

/-- Extraction is stable: if a tree evolves without touching the nodes in
`[lo, t.len)` and only appends to the arena, subtrees rooted in that region
read back unchanged. -/
theorem extract_stable {t t' : Tree} {lo : Nat} (fuel : Nat) (id : Nat)
    (hlo : lo ≤ id) (hid : id < t.len)
    (hframe : ∀ j, lo ≤ j → j < t.len → t'.getNode j = t.getNode j)
    (harena : ∃ r, t'.arena = t.arena ++ r)
    (hwf : t.wf)
    (hclosed : ∀ j, lo ≤ j → j < t.len → ∀ c ∈ (t.getNode j).children, lo ≤ c ∧ c < t.len) :
    t'.extract fuel id = t.extract fuel id := by
  induction fuel generalizing id with
  | zero => rfl
  | succ fuel ih =>
    simp only [Tree.extract]
    rw [hframe id hlo hid]
    obtain ⟨r, hr⟩ := harena
    have hwfn := Tree.wf_getNode t id hwf
    congr 1
    · cases hk : (t.getNode id).key with
      | none => rfl
      | some s =>
        have hs : spanWF t.arena s := by
          have := hwfn.2.1
          rw [hk] at this
          simpa using this
        simp [hr, readSpan_append r hs]
    · cases hv : (t.getNode id).val with
      | none => rfl
      | some s =>
        have hs : spanWF t.arena s := by
          have := hwfn.2.2
          rw [hv] at this
          simpa using this
        simp [hr, readSpan_append r hs]
    · apply List.map_congr_left
      intro c hc
      obtain ⟨hc1, hc2⟩ := hclosed id hlo hid c hc
      exact ih c hc1 hc2

/-! ### The scalar commit path -/

theorem commitVal_arena (t : Tree) (id : Nat) (v : Span) :
    (commitVal t id v).arena = t.arena := by
  unfold commitVal
  split <;> rfl

theorem commitVal_len (t : Tree) (id : Nat) (v : Span) :
    (commitVal t id v).len = t.len := by
  unfold commitVal
  split
  · exact Tree.toKeyval_len ..
  · exact Tree.toVal_len ..

theorem commitVal_getNode_ne (t : Tree) (id j : Nat) (v : Span) (h : j ≠ id) :
    (commitVal t id v).getNode j = t.getNode j := by
  unfold commitVal
  split
  · exact Tree.toKeyval_getNode_ne _ _ _ _ _ h
  · exact Tree.toVal_getNode_ne _ _ _ _ h

theorem commitVal_wf {t : Tree} {id : Nat} {v : Span} (hwf : t.wf)
    (hv : spanWF t.arena v) : (commitVal t id v).wf := by
  unfold commitVal
  split
  · refine Tree.toKeyval_wf hwf ?_ hv
    have h := (Tree.wf_getNode t id hwf).2.1
    simpa [Tree.keyOf] using h
  · exact Tree.toVal_wf hwf hv

theorem commitVal_getNode_self (t : Tree) (id : Nat) (v : Span) (hid : id < t.len) :
    (commitVal t id v).getNode id
      = { t.getNode id with
          kind := if (t.getNode id).key.isSome then NodeKind.keyval else NodeKind.scalarval,
          val := some v, dquo := false, kassign := (t.getNode id).kassign + 1 } := by
  unfold commitVal
  cases hk : (t.getNode id).key with
  | none =>
    simp only [Tree.hasKey, hk, Option.isSome_none, Bool.false_eq_true, if_false]
    rw [Tree.toVal_getNode_self _ _ _ hid]
  | some ks =>
    simp only [Tree.hasKey, hk, Option.isSome_some, if_true]
    rw [Tree.toKeyval_getNode_self _ _ _ _ hid]
    simp [Tree.keyOf, hk]

theorem scalarCommit_len (t : Tree) (id : Nat) (s : Chars) :
    (scalarCommit t id s).len = t.len := by
  unfold scalarCommit
  rw [commitVal_len, to_arena_len]

theorem scalarCommit_arena (t : Tree) (id : Nat) (s : Chars) :
    ∃ r, (scalarCommit t id s).arena = t.arena ++ r := by
  unfold scalarCommit
  rw [commitVal_arena]
  exact to_arena_arena t s

theorem scalarCommit_getNode_ne (t : Tree) (id j : Nat) (s : Chars) (h : j ≠ id) :
    (scalarCommit t id s).getNode j = t.getNode j := by
  unfold scalarCommit
  rw [commitVal_getNode_ne _ _ _ _ h, to_arena_getNode]

theorem scalarCommit_wf {t : Tree} {id : Nat} {s : Chars} (hwf : t.wf) :
    (scalarCommit t id s).wf := by
  unfold scalarCommit
  exact commitVal_wf (to_arena_wf s hwf) (to_arena_spanWF t s)

theorem scalarCommit_getNode_self (t : Tree) (id : Nat) (s : Chars) (hid : id < t.len) :
    (scalarCommit t id s).getNode id
      = { t.getNode id with
          kind := if (t.getNode id).key.isSome then NodeKind.keyval else NodeKind.scalarval,
          val := some (to_arena t s).2, dquo := false,
          kassign := (t.getNode id).kassign + 1 } := by
  unfold scalarCommit
  rw [commitVal_getNode_self _ _ _ (by rw [to_arena_len]; exact hid)]
  rw [to_arena_getNode]

theorem scalarCommit_val_read (t : Tree) (id : Nat) (s : Chars) :
    readSpan (scalarCommit t id s).arena (to_arena t s).2 = s := by
  unfold scalarCommit
  rw [commitVal_arena]
  exact to_arena_read t s

/-- Reading the node's pre-existing key text is unchanged by the arena growth
of a scalar commit. -/
theorem scalarCommit_keyText {t : Tree} (id : Nat) (s : Chars) (hwf : t.wf) :
    ((t.getNode id).key.map (readSpan (scalarCommit t id s).arena))
      = ((t.getNode id).key.map (readSpan t.arena)) := by
  obtain ⟨r, hr⟩ := scalarCommit_arena t id s
  cases hk : (t.getNode id).key with
  | none => rfl
  | some ks =>
    have hs : spanWF t.arena ks := by
      have := (Tree.wf_getNode t id hwf).2.1
      rw [hk] at this
      simpa using this
    simp [hr, readSpan_append r hs]

/-- Extraction of a node after a scalar commit: the canonical text becomes
the value, the key is untouched, the kind follows key presence. -/
theorem scalarCommit_extract {t : Tree} {id : Nat} (s : Chars) (hid : id < t.len)
    (hwf : t.wf) (hch : (t.getNode id).children = []) :
    ∀ fuel, 1 ≤ fuel →
      (scalarCommit t id s).extract fuel id
        = .node (specScalarKind ((t.getNode id).key.map (readSpan t.arena)))
            ((t.getNode id).key.map (readSpan t.arena)) (some s) false [] := by
  intro fuel hfuel
  cases fuel with
  | zero => omega
  | succ f =>
    simp only [Tree.extract]
    rw [scalarCommit_getNode_self _ _ _ hid]
    simp only [scalarCommit_keyText id s hwf, hch]
    cases hk : (t.getNode id).key <;>
      simp [specScalarKind, hk, scalarCommit_val_read]

/-- Extraction of a node after the string branch (scalar commit followed by
the `VAL_DQUO` tag). -/
theorem strCommit_extract {t : Tree} {id : Nat} (s : Chars) (hid : id < t.len)
    (hwf : t.wf) (hch : (t.getNode id).children = []) :
    ∀ fuel, 1 ≤ fuel →
      ((scalarCommit t id s).addDquo id).extract fuel id
        = .node (specScalarKind ((t.getNode id).key.map (readSpan t.arena)))
            ((t.getNode id).key.map (readSpan t.arena)) (some s) true [] := by
  intro fuel hfuel
  cases fuel with
  | zero => omega
  | succ f =>
    simp only [Tree.extract]
    rw [Tree.addDquo_getNode_self _ _ (by rw [scalarCommit_len]; exact hid)]
    rw [scalarCommit_getNode_self _ _ _ hid]
    have harena : ((scalarCommit t id s).addDquo id).arena = (scalarCommit t id s).arena := rfl
    simp only [harena]
    simp only [scalarCommit_keyText id s hwf, hch]
    cases hk : (t.getNode id).key <;>
      simp [specScalarKind, hk, scalarCommit_val_read]

/-! ### Postconditions of the materializer -/

/-- What one call of the materializer guarantees at node `id`: the node
store only grows, the arena only grows, no node other than `id` and the
freshly appended ones changes, well-formedness is preserved, all new
children stay in the fresh region, the node's kind is reassigned exactly
once more, and the subtree read back at `id` is the spec-side denotation of
the source value under the node's pre-existing key. -/
structure ConvPost (v : TomlValue) (t t' : Tree) (id : Nat) : Prop where
  len_le : t.len ≤ t'.len
  arena_ext : ∃ r, t'.arena = t.arena ++ r
  frame : ∀ j, j < t.len → j ≠ id → t'.getNode j = t.getNode j
  wf : t'.wf
  closed : ∀ j, (j = id ∨ (t.len ≤ j ∧ j < t'.len)) →
    ∀ c ∈ (t'.getNode j).children, t.len ≤ c ∧ c < t'.len
  kassign_id : (t'.getNode id).kassign = (t.getNode id).kassign + 1
  extract_eq : ∀ fuel, heightV v ≤ fuel →
    t'.extract fuel id = specTree v ((t.getNode id).key.map (readSpan t.arena))

/-- What the table-member loop guarantees: one keyed child per member is
appended under `id` in order, each such child ends with its kind assigned
twice (once for the key stash, once by its own visit), and the children
read back as the member denotations. -/
structure MembersPost (ms : Members) (t t' : Tree) (id : Nat) : Prop where
  len_le : t.len ≤ t'.len
  arena_ext : ∃ r, t'.arena = t.arena ++ r
  frame : ∀ j, j < t.len → j ≠ id → t'.getNode j = t.getNode j
  wf : t'.wf
  node_id : ∃ cs, t'.getNode id
        = { t.getNode id with children := (t.getNode id).children ++ cs }
      ∧ (∀ c ∈ cs, t.len ≤ c ∧ c < t'.len)
      ∧ (∀ c ∈ cs, (t'.getNode c).kassign = 2)
      ∧ (∀ fuel, heightM ms ≤ fuel → cs.map (t'.extract fuel) = specMembers ms)
  closed_fresh : ∀ j, t.len ≤ j → j < t'.len →
    ∀ c ∈ (t'.getNode j).children, t.len ≤ c ∧ c < t'.len

/-- What the array-element loop guarantees: one keyless child per element is
appended under `id` in order, each such child ends with its kind assigned
exactly once, and the children read back as the element denotations. -/
structure ElemsPost (es : Elems) (t t' : Tree) (id : Nat) : Prop where
  len_le : t.len ≤ t'.len
  arena_ext : ∃ r, t'.arena = t.arena ++ r
  frame : ∀ j, j < t.len → j ≠ id → t'.getNode j = t.getNode j
  wf : t'.wf
  node_id : ∃ cs, t'.getNode id
        = { t.getNode id with children := (t.getNode id).children ++ cs }
      ∧ (∀ c ∈ cs, t.len ≤ c ∧ c < t'.len)
      ∧ (∀ c ∈ cs, (t'.getNode c).kassign = 1)
      ∧ (∀ fuel, heightE es ≤ fuel → cs.map (t'.extract fuel) = specElems es)
  closed_fresh : ∀ j, t.len ≤ j → j < t'.len →
    ∀ c ∈ (t'.getNode j).children, t.len ≤ c ∧ c < t'.len

/-- The table-member stash (parse_toml.cpp lines 57–58): append a child
under `id` and set it to a keyval carrying the arena copy of the member key
and an empty value.  This is exactly the state passed to the recursive
`convert_toml_value` call. -/
def stashChild (t : Tree) (id : Nat) (k : Chars) : Tree :=
  (to_arena (t.appendChild id).1 k).1.toKeyval (t.appendChild id).2
    (to_arena (t.appendChild id).1 k).2 .null

theorem stashChild_len (t : Tree) (id : Nat) (k : Chars) :
    (stashChild t id k).len = t.len + 1 := by
  unfold stashChild
  rw [Tree.toKeyval_len, to_arena_len, Tree.appendChild_len]

theorem stashChild_arena (t : Tree) (id : Nat) (k : Chars) :
    ∃ r, (stashChild t id k).arena = t.arena ++ r := by
  unfold stashChild
  rw [Tree.toKeyval_arena]
  have := to_arena_arena (t.appendChild id).1 k
  rwa [Tree.appendChild_arena] at this

theorem stashChild_wf {t : Tree} {id : Nat} {k : Chars} (hwf : t.wf) :
    (stashChild t id k).wf := by
  unfold stashChild
  exact Tree.toKeyval_wf (to_arena_wf k (Tree.appendChild_wf hwf))
    (to_arena_spanWF ..) (by simp [spanWF, Span.stop])

theorem stashChild_getNode_cid (t : Tree) (id : Nat) (k : Chars) :
    (stashChild t id k).getNode t.len
      = { kind := .keyval, key := some (to_arena (t.appendChild id).1 k).2,
          val := some .null, dquo := false, children := [], kassign := 1 } := by
  unfold stashChild
  rw [Tree.appendChild_snd]
  rw [Tree.toKeyval_getNode_self _ _ _ _
    (by rw [to_arena_len, Tree.appendChild_len]; omega)]
  rw [to_arena_getNode, Tree.appendChild_getNode_new]
  rfl

theorem stashChild_getNode_id {t : Tree} {id : Nat} (k : Chars) (hid : id < t.len) :
    (stashChild t id k).getNode id
      = { t.getNode id with children := (t.getNode id).children ++ [t.len] } := by
  unfold stashChild
  rw [Tree.appendChild_snd]
  rw [Tree.toKeyval_getNode_ne _ _ _ _ _ (by omega)]
  rw [to_arena_getNode, Tree.appendChild_getNode_pid _ _ hid]

theorem stashChild_getNode_lt {t : Tree} {id j : Nat} (k : Chars) (hj : j < t.len)
    (hne : j ≠ id) : (stashChild t id k).getNode j = t.getNode j := by
  unfold stashChild
  rw [Tree.appendChild_snd]
  rw [Tree.toKeyval_getNode_ne _ _ _ _ _ (by omega)]
  rw [to_arena_getNode, Tree.appendChild_getNode_lt _ _ _ hj hne]

theorem stashChild_key_read (t : Tree) (id : Nat) (k : Chars) :
    readSpan (stashChild t id k).arena (to_arena (t.appendChild id).1 k).2 = k := by
  unfold stashChild
  rw [Tree.toKeyval_arena]
  exact to_arena_read ..

/-- Composition step for the table-member loop: the stash, the recursive
conversion of the member value, and the rest of the loop combine into the
loop's postcondition. -/
theorem membersPost_cons_step {t tD tE : Tree} {id : Nat} {k : Chars}
    {v : TomlValue} {rest : Members}
    (hid : id < t.len) (hwf : t.wf)
    (CP : ConvPost v (stashChild t id k) tD t.len)
    (MPr : MembersPost rest tD tE id) :
    MembersPost (.cons k v rest) t tE id := by
  have hsl : (stashChild t id k).len = t.len + 1 := stashChild_len ..
  have hlenD : t.len + 1 ≤ tD.len := hsl ▸ CP.len_le
  have hlenE : tD.len ≤ tE.len := MPr.len_le
  have hframe_cid_E : ∀ j, t.len ≤ j → j < tD.len → tE.getNode j = tD.getNode j := by
    intro j hj1 hj2
    exact MPr.frame j hj2 (by omega)
  have hclosedD : ∀ j, t.len ≤ j → j < tD.len →
      ∀ c ∈ (tD.getNode j).children, t.len ≤ c ∧ c < tD.len := by
    intro j hj1 hj2 c hc
    rcases Nat.eq_or_lt_of_le hj1 with hj | hj
    · subst hj
      have := CP.closed t.len (Or.inl rfl) c hc
      omega
    · have := CP.closed j (Or.inr ⟨by omega, hj2⟩) c hc
      omega
  refine ⟨by omega, ?_, ?_, MPr.wf, ?_, ?_⟩
  · obtain ⟨r1, hr1⟩ := stashChild_arena t id k
    obtain ⟨r2, hr2⟩ := CP.arena_ext
    obtain ⟨r3, hr3⟩ := MPr.arena_ext
    exact ⟨r1 ++ r2 ++ r3, by rw [hr3, hr2, hr1]; simp⟩
  · intro j hj hne
    rw [MPr.frame j (by omega) hne]
    rw [CP.frame j (by omega) (by omega)]
    exact stashChild_getNode_lt k hj hne
  · obtain ⟨cs', hnid', hr', hk', he'⟩ := MPr.node_id
    refine ⟨t.len :: cs', ?_, ?_, ?_, ?_⟩
    · rw [hnid']
      have hD_id : tD.getNode id = (stashChild t id k).getNode id :=
        CP.frame id (by omega) (by omega)
      rw [hD_id, stashChild_getNode_id k hid]
      simp
    · intro c hc
      rcases List.mem_cons.mp hc with hc | hc
      · omega
      · have := hr' c hc
        omega
    · intro c hc
      rcases List.mem_cons.mp hc with hc | hc
      · subst hc
        rw [hframe_cid_E t.len (Nat.le_refl _) (by omega)]
        rw [CP.kassign_id, stashChild_getNode_cid]
      · exact hk' c hc
    · intro fuel hfuel
      have hfv : heightV v ≤ fuel := by
        have : heightV v ≤ heightM (.cons k v rest) := by simp [heightM]
        omega
      have hfm : heightM rest ≤ fuel := by
        have : heightM rest ≤ heightM (.cons k v rest) := by simp [heightM]
        omega
      simp only [List.map_cons]
      rw [he' fuel hfm]
      have hstable : tE.extract fuel t.len = tD.extract fuel t.len := by
        refine extract_stable fuel t.len (Nat.le_refl _) (by omega)
          hframe_cid_E MPr.arena_ext CP.wf hclosedD
      rw [hstable]
      rw [CP.extract_eq fuel hfv]
      rw [stashChild_getNode_cid]
      simp [stashChild_key_read, specMembers]
  · intro j hj1 hj2 c hc
    by_cases hjD : j < tD.len
    · rw [hframe_cid_E j hj1 hjD] at hc
      have := hclosedD j hj1 hjD c hc
      omega
    · have := MPr.closed_fresh j (by omega) hj2 c hc
      omega

/-- Composition step for the array-element loop: the fresh keyless child,
the recursive conversion of the element, and the rest of the loop combine
into the loop's postcondition. -/
theorem elemsPost_cons_step {t tD tE : Tree} {id : Nat}
    {v : TomlValue} {rest : Elems}
    (hid : id < t.len) (hwf : t.wf)
    (CP : ConvPost v (t.appendChild id).1 tD t.len)
    (MPr : ElemsPost rest tD tE id) :
    ElemsPost (.cons v rest) t tE id := by
  have hsl : (t.appendChild id).1.len = t.len + 1 := Tree.appendChild_len ..
  have hlenD : t.len + 1 ≤ tD.len := hsl ▸ CP.len_le
  have hlenE : tD.len ≤ tE.len := MPr.len_le
  have hframe_cid_E : ∀ j, t.len ≤ j → j < tD.len → tE.getNode j = tD.getNode j := by
    intro j hj1 hj2
    exact MPr.frame j hj2 (by omega)
  have hclosedD : ∀ j, t.len ≤ j → j < tD.len →
      ∀ c ∈ (tD.getNode j).children, t.len ≤ c ∧ c < tD.len := by
    intro j hj1 hj2 c hc
    rcases Nat.eq_or_lt_of_le hj1 with hj | hj
    · subst hj
      have := CP.closed t.len (Or.inl rfl) c hc
      omega
    · have := CP.closed j (Or.inr ⟨by omega, hj2⟩) c hc
      omega
  refine ⟨by omega, ?_, ?_, MPr.wf, ?_, ?_⟩
  · obtain ⟨r2, hr2⟩ := CP.arena_ext
    obtain ⟨r3, hr3⟩ := MPr.arena_ext
    rw [Tree.appendChild_arena] at hr2
    exact ⟨r2 ++ r3, by rw [hr3, hr2]; simp⟩
  · intro j hj hne
    rw [MPr.frame j (by omega) hne]
    rw [CP.frame j (by omega) (by omega)]
    exact Tree.appendChild_getNode_lt _ _ _ hj hne
  · obtain ⟨cs', hnid', hr', hk', he'⟩ := MPr.node_id
    refine ⟨t.len :: cs', ?_, ?_, ?_, ?_⟩
    · rw [hnid']
      have hD_id : tD.getNode id = (t.appendChild id).1.getNode id :=
        CP.frame id (by omega) (by omega)
      rw [hD_id, Tree.appendChild_getNode_pid _ _ hid]
      simp
    · intro c hc
      rcases List.mem_cons.mp hc with hc | hc
      · omega
      · have := hr' c hc
        omega
    · intro c hc
      rcases List.mem_cons.mp hc with hc | hc
      · subst hc
        rw [hframe_cid_E t.len (Nat.le_refl _) (by omega)]
        rw [CP.kassign_id, Tree.appendChild_getNode_new]
        rfl
      · exact hk' c hc
    · intro fuel hfuel
      have hfv : heightV v ≤ fuel := by
        have : heightV v ≤ heightE (.cons v rest) := by simp [heightE]
        omega
      have hfm : heightE rest ≤ fuel := by
        have : heightE rest ≤ heightE (.cons v rest) := by simp [heightE]
        omega
      simp only [List.map_cons]
      rw [he' fuel hfm]
      have hstable : tE.extract fuel t.len = tD.extract fuel t.len := by
        refine extract_stable fuel t.len (Nat.le_refl _) (by omega)
          hframe_cid_E MPr.arena_ext CP.wf hclosedD
      rw [hstable]
      rw [CP.extract_eq fuel hfv]
      rw [Tree.appendChild_getNode_new]
      rfl
  · intro j hj1 hj2 c hc
    by_cases hjD : j < tD.len
    · rw [hframe_cid_E j hj1 hjD] at hc
      have := hclosedD j hj1 hjD c hc
      omega
    · have := MPr.closed_fresh j (by omega) hj2 c hc
      omega

/-- Resolving an optional key span is unchanged by arena growth. -/
theorem keyText_append {a : Chars} (r : Chars) {o : Option Span}
    (h : spanWF a (o.getD .null)) :
    o.map (readSpan (a ++ r)) = o.map (readSpan a) := by
  cases o with
  | none => rfl
  | some s => simp [readSpan_append r (by simpa using h)]

/-- All `ConvPost` obligations of a scalar branch except the final extract
shape, for the plain (non-string) scalar commit. -/
theorem scalarCommit_convPost {t : Tree} {id : Nat} (s : Chars)
    (hid : id < t.len) (hwf : t.wf) (hch : (t.getNode id).children = []) :
    t.len ≤ (scalarCommit t id s).len
    ∧ (∀ j, j < t.len → j ≠ id → (scalarCommit t id s).getNode j = t.getNode j)
    ∧ (∀ j, (j = id ∨ (t.len ≤ j ∧ j < (scalarCommit t id s).len)) →
        ∀ c ∈ ((scalarCommit t id s).getNode j).children,
          t.len ≤ c ∧ c < (scalarCommit t id s).len)
    ∧ ((scalarCommit t id s).getNode id).kassign = (t.getNode id).kassign + 1 := by
  have hlen : (scalarCommit t id s).len = t.len := scalarCommit_len ..
  refine ⟨le_of_eq hlen.symm, ?_, ?_, ?_⟩
  · intro j _ hne
    exact scalarCommit_getNode_ne _ _ _ _ hne
  · intro j hj c hc
    rcases hj with hj | hj
    · subst hj
      rw [scalarCommit_getNode_self _ _ _ hid] at hc
      simp [hch] at hc
    · omega
  · rw [scalarCommit_getNode_self _ _ _ hid]

mutual
/-- Master correctness of the materializer at one node. -/
theorem convert_post (v : TomlValue) (t : Tree) (id : Nat)
    (hid : id < t.len) (hwf : t.wf) (hch : (t.getNode id).children = []) :
    ConvPost v t (convert v t id) id := by
  cases v with
  | table ms =>
    have hconv : convert (.table ms) t id
        = convertMembers ms
            (if t.hasKey id then t.toMap id (some (t.keyOf id)) else t.toMap id none) id :=
      rfl
    rw [hconv, table_branch_eq]
    have hid1 : id < (t.toMap id (t.getNode id).key).len := by
      rw [Tree.toMap_len]; exact hid
    have hwf1 : (t.toMap id (t.getNode id).key).wf :=
      Tree.toMap_wf hwf ((Tree.wf_getNode t id hwf).2.1)
    have MP := convertMembers_post ms (t.toMap id (t.getNode id).key) id hid1 hwf1
    have hlen1 : (t.toMap id (t.getNode id).key).len = t.len := Tree.toMap_len ..
    have harena1 : (t.toMap id (t.getNode id).key).arena = t.arena := rfl
    have hnode1 := Tree.toMap_getNode_self t id (t.getNode id).key hid
    obtain ⟨cs, hnid, hcsr, hcsk, hcse⟩ := MP.node_id
    refine ⟨?_, ?_, ?_, MP.wf, ?_, ?_, ?_⟩
    · rw [← hlen1]; exact MP.len_le
    · obtain ⟨r, hr⟩ := MP.arena_ext
      exact ⟨r, by rw [hr, harena1]⟩
    · intro j hj hne
      rw [MP.frame j (by omega) hne, Tree.toMap_getNode_ne _ _ _ _ hne]
    · intro j hj c hc
      rcases hj with hj | hj
      · subst hj
        rw [hnid, hnode1] at hc
        simp [hch] at hc
        have := hcsr c hc
        omega
      · have := MP.closed_fresh j (by omega) (by omega) c hc
        omega
    · rw [hnid, hnode1]
    · intro fuel hf
      have hf' : heightM ms + 1 ≤ fuel := by simpa [heightV] using hf
      cases fuel with
      | zero => omega
      | succ f =>
        simp only [Tree.extract]
        rw [hnid, hnode1]
        obtain ⟨r, hr⟩ := MP.arena_ext
        rw [harena1] at hr
        have hkey : ((t.getNode id).key.map
            (readSpan (convertMembers ms (t.toMap id (t.getNode id).key) id).arena))
            = ((t.getNode id).key.map (readSpan t.arena)) := by
          rw [hr]
          exact keyText_append r ((Tree.wf_getNode t id hwf).2.1)
        simp [hch, hkey, hcse f (by omega), specTree]
  | array es =>
    have hconv : convert (.array es) t id
        = convertElems es
            (if t.hasKey id then t.toSeq id (some (t.keyOf id)) else t.toSeq id none) id :=
      rfl
    rw [hconv, seq_branch_eq]
    have hid1 : id < (t.toSeq id (t.getNode id).key).len := by
      rw [Tree.toSeq_len]; exact hid
    have hwf1 : (t.toSeq id (t.getNode id).key).wf :=
      Tree.toSeq_wf hwf ((Tree.wf_getNode t id hwf).2.1)
    have MP := convertElems_post es (t.toSeq id (t.getNode id).key) id hid1 hwf1
    have hlen1 : (t.toSeq id (t.getNode id).key).len = t.len := Tree.toSeq_len ..
    have harena1 : (t.toSeq id (t.getNode id).key).arena = t.arena := rfl
    have hnode1 := Tree.toSeq_getNode_self t id (t.getNode id).key hid
    obtain ⟨cs, hnid, hcsr, hcsk, hcse⟩ := MP.node_id
    refine ⟨?_, ?_, ?_, MP.wf, ?_, ?_, ?_⟩
    · rw [← hlen1]; exact MP.len_le
    · obtain ⟨r, hr⟩ := MP.arena_ext
      exact ⟨r, by rw [hr, harena1]⟩
    · intro j hj hne
      rw [MP.frame j (by omega) hne, Tree.toSeq_getNode_ne _ _ _ _ hne]
    · intro j hj c hc
      rcases hj with hj | hj
      · subst hj
        rw [hnid, hnode1] at hc
        simp [hch] at hc
        have := hcsr c hc
        omega
      · have := MP.closed_fresh j (by omega) (by omega) c hc
        omega
    · rw [hnid, hnode1]
    · intro fuel hf
      have hf' : heightE es + 1 ≤ fuel := by simpa [heightV] using hf
      cases fuel with
      | zero => omega
      | succ f =>
        simp only [Tree.extract]
        rw [hnid, hnode1]
        obtain ⟨r, hr⟩ := MP.arena_ext
        rw [harena1] at hr
        have hkey : ((t.getNode id).key.map
            (readSpan (convertElems es (t.toSeq id (t.getNode id).key) id).arena))
            = ((t.getNode id).key.map (readSpan t.arena)) := by
          rw [hr]
          exact keyText_append r ((Tree.wf_getNode t id hwf).2.1)
        simp [hch, hkey, hcse f (by omega), specTree]
  | str s =>
    have hconv : convert (.str s) t id = (scalarCommit t id s).addDquo id := rfl
    rw [hconv]
    obtain ⟨h1, h2, h3, h4⟩ := scalarCommit_convPost s hid hwf hch
    have hlen : (scalarCommit t id s).len = t.len := scalarCommit_len ..
    have hdlen : ((scalarCommit t id s).addDquo id).len = (scalarCommit t id s).len :=
      Tree.addDquo_len ..
    have hdarena : ((scalarCommit t id s).addDquo id).arena = (scalarCommit t id s).arena :=
      rfl
    refine ⟨by omega, ?_, ?_, Tree.addDquo_wf (scalarCommit_wf hwf), ?_, ?_, ?_⟩
    · obtain ⟨r, hr⟩ := scalarCommit_arena t id s
      exact ⟨r, by rw [hdarena, hr]⟩
    · intro j hj hne
      rw [Tree.addDquo_getNode_ne _ _ _ hne]
      exact h2 j hj hne
    · intro j hj c hc
      rcases hj with hj | hj
      · subst hj
        rw [Tree.addDquo_getNode_self _ _ (by omega),
          scalarCommit_getNode_self _ _ _ hid] at hc
        simp [hch] at hc
      · omega
    · rw [Tree.addDquo_getNode_self _ _ (by omega), scalarCommit_getNode_self _ _ _ hid]
    · intro fuel hf
      rw [strCommit_extract s hid hwf hch fuel (by simpa [heightV] using hf)]
      rfl
  | integer i =>
    have hconv : convert (.integer i) t id = scalarCommit t id (intRepr i) := rfl
    rw [hconv]
    obtain ⟨h1, h2, h3, h4⟩ := scalarCommit_convPost (intRepr i) hid hwf hch
    refine ⟨h1, scalarCommit_arena .., h2, scalarCommit_wf hwf, h3, h4, ?_⟩
    intro fuel hf
    rw [scalarCommit_extract _ hid hwf hch fuel (by simpa [heightV] using hf)]
    rfl
  | float f =>
    cases f with
    | pinf =>
      have hconv : convert (.float .pinf) t id
          = scalarCommit t id ['.', 'i', 'n', 'f'] := rfl
      rw [hconv]
      obtain ⟨h1, h2, h3, h4⟩ := scalarCommit_convPost ['.', 'i', 'n', 'f'] hid hwf hch
      refine ⟨h1, scalarCommit_arena .., h2, scalarCommit_wf hwf, h3, h4, ?_⟩
      intro fuel hf
      rw [scalarCommit_extract _ hid hwf hch fuel (by simpa [heightV] using hf)]
      simp [specTree, specFloatText]
    | ninf =>
      have hconv : convert (.float .ninf) t id
          = scalarCommit t id ['-', '.', 'i', 'n', 'f'] := rfl
      rw [hconv]
      obtain ⟨h1, h2, h3, h4⟩ :=
        scalarCommit_convPost ['-', '.', 'i', 'n', 'f'] hid hwf hch
      refine ⟨h1, scalarCommit_arena .., h2, scalarCommit_wf hwf, h3, h4, ?_⟩
      intro fuel hf
      rw [scalarCommit_extract _ hid hwf hch fuel (by simpa [heightV] using hf)]
      simp [specTree, specFloatText]
    | nan sgn =>
      have hconv : convert (.float (.nan sgn)) t id
          = scalarCommit t id ['.', 'n', 'a', 'n'] := rfl
      rw [hconv]
      obtain ⟨h1, h2, h3, h4⟩ := scalarCommit_convPost ['.', 'n', 'a', 'n'] hid hwf hch
      refine ⟨h1, scalarCommit_arena .., h2, scalarCommit_wf hwf, h3, h4, ?_⟩
      intro fuel hf
      rw [scalarCommit_extract _ hid hwf hch fuel (by simpa [heightV] using hf)]
      simp [specTree, specFloatText]
    | finite r =>
      have hconv : convert (.float (.finite r)) t id = scalarCommit t id r := rfl
      rw [hconv]
      obtain ⟨h1, h2, h3, h4⟩ := scalarCommit_convPost r hid hwf hch
      refine ⟨h1, scalarCommit_arena .., h2, scalarCommit_wf hwf, h3, h4, ?_⟩
      intro fuel hf
      rw [scalarCommit_extract _ hid hwf hch fuel (by simpa [heightV] using hf)]
      simp [specTree, specFloatText]
  | boolean b =>
    cases b with
    | true =>
      have hconv : convert (.boolean true) t id
          = scalarCommit t id ['t', 'r', 'u', 'e'] := rfl
      rw [hconv]
      obtain ⟨h1, h2, h3, h4⟩ := scalarCommit_convPost ['t', 'r', 'u', 'e'] hid hwf hch
      refine ⟨h1, scalarCommit_arena .., h2, scalarCommit_wf hwf, h3, h4, ?_⟩
      intro fuel hf
      rw [scalarCommit_extract _ hid hwf hch fuel (by simpa [heightV] using hf)]
      simp [specTree, String.data]
    | false =>
      have hconv : convert (.boolean false) t id
          = scalarCommit t id ['f', 'a', 'l', 's', 'e'] := rfl
      rw [hconv]
      obtain ⟨h1, h2, h3, h4⟩ :=
        scalarCommit_convPost ['f', 'a', 'l', 's', 'e'] hid hwf hch
      refine ⟨h1, scalarCommit_arena .., h2, scalarCommit_wf hwf, h3, h4, ?_⟩
      intro fuel hf
      rw [scalarCommit_extract _ hid hwf hch fuel (by simpa [heightV] using hf)]
      simp [specTree, String.data]
  | date r =>
    have hconv : convert (.date r) t id = scalarCommit t id r := rfl
    rw [hconv]
    obtain ⟨h1, h2, h3, h4⟩ := scalarCommit_convPost r hid hwf hch
    refine ⟨h1, scalarCommit_arena .., h2, scalarCommit_wf hwf, h3, h4, ?_⟩
    intro fuel hf
    rw [scalarCommit_extract _ hid hwf hch fuel (by simpa [heightV] using hf)]
    rfl
  | time r =>
    have hconv : convert (.time r) t id = scalarCommit t id r := rfl
    rw [hconv]
    obtain ⟨h1, h2, h3, h4⟩ := scalarCommit_convPost r hid hwf hch
    refine ⟨h1, scalarCommit_arena .., h2, scalarCommit_wf hwf, h3, h4, ?_⟩
    intro fuel hf
    rw [scalarCommit_extract _ hid hwf hch fuel (by simpa [heightV] using hf)]
    rfl
  | datetime r =>
    have hconv : convert (.datetime r) t id = scalarCommit t id r := rfl
    rw [hconv]
    obtain ⟨h1, h2, h3, h4⟩ := scalarCommit_convPost r hid hwf hch
    refine ⟨h1, scalarCommit_arena .., h2, scalarCommit_wf hwf, h3, h4, ?_⟩
    intro fuel hf
    rw [scalarCommit_extract _ hid hwf hch fuel (by simpa [heightV] using hf)]
    rfl
/-- Master correctness of the table-member loop. -/
theorem convertMembers_post (ms : Members) (t : Tree) (id : Nat)
    (hid : id < t.len) (hwf : t.wf) :
    MembersPost ms t (convertMembers ms t id) id := by
  cases ms with
  | nil =>
    have hred : convertMembers .nil t id = t := rfl
    rw [hred]
    refine ⟨Nat.le_refl _, ⟨[], by simp⟩, fun j hj hne => rfl, hwf, ?_, ?_⟩
    · exact ⟨[], by simp, by simp, by simp, by simp [specMembers]⟩
    · intro j hj1 hj2
      omega
  | cons k v rest =>
    have hred : convertMembers (.cons k v rest) t id
        = convertMembers rest
            (convert v (stashChild t id k) (t.appendChild id).2) id := rfl
    rw [hred, Tree.appendChild_snd]
    have hsl : (stashChild t id k).len = t.len + 1 := stashChild_len ..
    have hcid : t.len < (stashChild t id k).len := by omega
    have hswf : (stashChild t id k).wf := stashChild_wf hwf
    have hsch : ((stashChild t id k).getNode t.len).children = [] := by
      rw [stashChild_getNode_cid]
    have CP := convert_post v (stashChild t id k) t.len hcid hswf hsch
    have hidD : id < (convert v (stashChild t id k) t.len).len := by
      have := CP.len_le
      omega
    have MPr := convertMembers_post rest (convert v (stashChild t id k) t.len) id hidD CP.wf
    exact membersPost_cons_step hid hwf CP MPr
/-- Master correctness of the array-element loop. -/
theorem convertElems_post (es : Elems) (t : Tree) (id : Nat)
    (hid : id < t.len) (hwf : t.wf) :
    ElemsPost es t (convertElems es t id) id := by
  cases es with
  | nil =>
    have hred : convertElems .nil t id = t := rfl
    rw [hred]
    refine ⟨Nat.le_refl _, ⟨[], by simp⟩, fun j hj hne => rfl, hwf, ?_, ?_⟩
    · exact ⟨[], by simp, by simp, by simp, by simp [specElems]⟩
    · intro j hj1 hj2
      omega
  | cons v rest =>
    have hred : convertElems (.cons v rest) t id
        = convertElems rest
            (convert v (t.appendChild id).1 (t.appendChild id).2) id := rfl
    rw [hred, Tree.appendChild_snd]
    have hsl : (t.appendChild id).1.len = t.len + 1 := Tree.appendChild_len ..
    have hcid : t.len < (t.appendChild id).1.len := by omega
    have hswf : (t.appendChild id).1.wf := Tree.appendChild_wf hwf
    have hsch : ((t.appendChild id).1.getNode t.len).children = [] := by
      rw [Tree.appendChild_getNode_new]
      rfl
    have CP := convert_post v (t.appendChild id).1 t.len hcid hswf hsch
    have hidD : id < (convert v (t.appendChild id).1 t.len).len := by
      have := CP.len_le
      omega
    have MPr := convertElems_post rest (convert v (t.appendChild id).1 t.len) id hidD CP.wf
    exact elemsPost_cons_step hid hwf CP MPr
end

/-! ### Entry points

The upstream parser (`toml::parse` / `toml::parse_file`) is external to the
repository; its outcome is passed in as an `Except` value.  Invoking the
process-wide error callback with a message is modelled by returning the
message alongside the (unchanged) tree; the C++ code `return`s right after
the callback, so a normally-returning handler also reaches no further code. -/

/-- `parse_toml_impl` (parse_toml.cpp lines 193–219): on a parse error the
message goes to the error handler and the function returns without touching
the tree; on success the parsed value is materialized at `node_id`. -/
def parse_toml_impl (parsed : Except Chars TomlValue) (t : Tree) (id : Nat) :
    Tree × Option Chars :=
  match parsed with
  | .error msg => (t, some msg)
  | .ok v => (convert v t id, none)

/-- `parse_toml_in_arena` (parse_toml.cpp lines 298–304): the raw source
text is first duplicated into the destination arena, then parsed from that
duplicate. -/
def parse_toml_in_arena_impl (parsed : Except Chars TomlValue) (toml : Chars)
    (t : Tree) (id : Nat) : Tree × Option Chars :=
  parse_toml_impl parsed (t.allocArena toml).1 id

/-- `parse_toml_file_impl` (parse_toml.cpp lines 221–244): file read and
parse happen inside `toml::parse_file`; file-access failures surface through
the same `toml::parse_error` path. -/
def parse_toml_file_impl (parsed : Except Chars TomlValue) (t : Tree) (id : Nat) :
    Tree × Option Chars :=
  match parsed with
  | .error msg => (t, some msg)
  | .ok v => (convert v t id, none)

/-! ### Decidability of the well-formedness predicates (for concrete inputs) -/

instance (a : Chars) (s : Span) : Decidable (spanWF a s) := by
  unfold spanWF
  infer_instance

instance (b : Nat) (a : Chars) (n : TNode) : Decidable (nodeWF b a n) := by
  unfold nodeWF
  infer_instance

instance (t : Tree) : Decidable t.wf := by
  unfold Tree.wf
  infer_instance

/-- The root key of a spec-side denotation is exactly the key passed in. -/
theorem specTree_keyOf (v : TomlValue) (k : Option Chars) : (specTree v k).keyOf = k := by
  cases v <;> rfl

/-- A one-node destination tree with a fresh, keyless root (sample input). -/
def sampleTree : Tree := { nodes := [TNode.fresh], arena := [] }

/-- A one-node destination tree whose root already carries key `"k"`
(sample input). -/
def sampleKeyed : Tree :=
  { nodes := [{ TNode.fresh with key := some (.sub 0 1) }], arena := ['k'] }

/-- A sample document: `{a = [true]}`. -/
def sampleDoc : TomlValue := .table (.cons ['a'] (.array (.cons (.boolean true) .nil)) .nil)

/-! ### The claims -/

/-- C1: for every source value hierarchy, `materialize(value, tree, node)`
produces a destination subtree rooted at `node` that is shape-isomorphic to
the source: the subtree read back at `node` is exactly the spec-side
denotation `specTree` of the source value — every table becomes a map node
with exactly one keyed child per (key, value) member in source member
order, every array becomes a sequence node with one keyless child per
element in source element order, every scalar becomes a single scalar node
with no children, one destination node per source node, depth preserved. -/
theorem materialize_structural_homomorphism (v : TomlValue) (t : Tree) (id : Nat)
    (hid : id < t.len) (hwf : t.wf) (hch : (t.getNode id).children = [])
    (fuel : Nat) (hfuel : heightV v ≤ fuel) :
    (convert v t id).extract fuel id = specTree v (t.keyText id) :=
  (convert_post v t id hid hwf hch).extract_eq fuel hfuel

/-- Witness for C1: the document `{a = [true]}` materialized into a fresh
one-node tree. -/
theorem materialize_structural_homomorphism_witness :
    (0 < sampleTree.len ∧ sampleTree.wf ∧ (sampleTree.getNode 0).children = []
      ∧ heightV sampleDoc ≤ 3)
    ∧ (convert sampleDoc sampleTree 0).extract 3 0
        = specTree sampleDoc (sampleTree.keyText 0) :=
  ⟨⟨by decide, by decide, by decide, by decide⟩,
    materialize_structural_homomorphism sampleDoc sampleTree 0
      (by decide) (by decide) (by decide) 3 (by decide)⟩

/-- C2: for every source value (composite or scalar), a destination node
that already carries key `"k"` when visited still carries key `"k"` after
materialization: the kind/value reassignment never erases the pre-existing
key. -/
theorem materialize_preserves_key (v : TomlValue) (t : Tree) (id : Nat) (ks : Span)
    (hid : id < t.len) (hwf : t.wf) (hch : (t.getNode id).children = [])
    (hkey : (t.getNode id).key = some ks)
    (fuel : Nat) (hfuel : heightV v ≤ fuel) :
    ((convert v t id).extract fuel id).keyOf = some (readSpan t.arena ks) := by
  have h := (convert_post v t id hid hwf hch).extract_eq fuel hfuel
  rw [h, specTree_keyOf, hkey]
  rfl

/-- Witness for C2: a boolean scalar materialized into a node that already
carries key `"k"`. -/
theorem materialize_preserves_key_witness :
    (0 < sampleKeyed.len ∧ sampleKeyed.wf ∧ (sampleKeyed.getNode 0).children = []
      ∧ (sampleKeyed.getNode 0).key = some (.sub 0 1)
      ∧ heightV (.boolean true) ≤ 1)
    ∧ ((convert (.boolean true) sampleKeyed 0).extract 1 0).keyOf
        = some (readSpan sampleKeyed.arena (.sub 0 1)) :=
  ⟨⟨by decide, by decide, by decide, by decide, by decide⟩,
    materialize_preserves_key (.boolean true) sampleKeyed 0 (.sub 0 1)
      (by decide) (by decide) (by decide) (by decide) 1 (by decide)⟩

/-- C3: the canonical text committed for a Float scalar is the literal
`.inf` for positive infinity, `-.inf` for negative infinity, `.nan` for NaN
regardless of the NaN's sign, and for every finite value the text produced
by the host numeric-to-text conversion for the underlying type. -/
theorem materialize_float_canonical (f : TFloat) (t : Tree) (id : Nat)
    (hid : id < t.len) (hwf : t.wf) (hch : (t.getNode id).children = [])
    (fuel : Nat) (hfuel : 1 ≤ fuel) :
    ((convert (.float f) t id).extract fuel id).valOf = some (specFloatText f)
    ∧ specFloatText .pinf = ".inf".data
    ∧ specFloatText .ninf = "-.inf".data
    ∧ (∀ sgn, specFloatText (.nan sgn) = ".nan".data)
    ∧ (∀ r, specFloatText (.finite r) = r) := by
  refine ⟨?_, rfl, rfl, fun sgn => rfl, fun r => rfl⟩
  have h := (convert_post (.float f) t id hid hwf hch).extract_eq fuel
    (by simpa [heightV] using hfuel)
  rw [h]
  cases f <;> rfl

/-- Witness for C3: a negative-signed NaN committed into a fresh node. -/
theorem materialize_float_canonical_witness :
    (0 < sampleTree.len ∧ sampleTree.wf ∧ (sampleTree.getNode 0).children = []
      ∧ 1 ≤ 1)
    ∧ ((convert (.float (.nan true)) sampleTree 0).extract 1 0).valOf
        = some (specFloatText (.nan true)) :=
  ⟨⟨by decide, by decide, by decide, by decide⟩,
    (materialize_float_canonical (.nan true) sampleTree 0
      (by decide) (by decide) (by decide) 1 (by decide)).1⟩

/-- C4: when the upstream parser rejects the input with a parse error, every
entry point (in-place, arena-copy, file-based) forwards the error message
through the error handler and builds no tree content: no destination node is
created or reassigned, even though control returns normally afterwards.
(In arena-copy mode the raw source text has already been duplicated into the
arena, but the node store is untouched.) -/
theorem parse_error_no_materialization (msg toml : Chars) (t : Tree) (id : Nat) :
    parse_toml_impl (.error msg) t id = (t, some msg)
    ∧ (parse_toml_in_arena_impl (.error msg) toml t id).1.nodes = t.nodes
    ∧ (parse_toml_in_arena_impl (.error msg) toml t id).2 = some msg
    ∧ parse_toml_file_impl (.error msg) t id = (t, some msg) :=
  ⟨rfl, rfl, rfl, rfl⟩

/-- C5 counterexample: materializing the single-member table `{a = true}`
into a fresh one-node tree reassigns the kind of the member's child node
twice during the one pass (once by the key stash `to_keyval(child, key, {})`
before the recursive call, once by the child's own visit), refuting
"exactly once" and "not reassigned before the recursive call". -/
theorem kind_reassigned_twice_cex :
    ((convert (.table (.cons ['a'] (.boolean true) .nil)) sampleTree 0).getNode 1).kassign = 2
    ∧ ((convert (.table (.cons ['a'] (.boolean true) .nil)) sampleTree 0).getNode 1).kassign
        ≠ 1 := by
  refine ⟨by decide, by decide⟩

/-- C5 amended: during one materialization pass the visited node's kind is
reassigned exactly once by its own visit; each array-element child's kind is
assigned exactly once in total, but each table-member child's kind is
assigned exactly twice — once when the member key is stashed (with the
empty/null value, which stays empty until the child's own visit) and once by
the child's own visit. -/
theorem materialize_kind_reassignment_amended (t : Tree) (id : Nat)
    (hid : id < t.len) (hwf : t.wf) (hch : (t.getNode id).children = []) :
    (∀ v : TomlValue, ((convert v t id).getNode id).kassign
        = (t.getNode id).kassign + 1)
    ∧ (∀ ms : Members, ∀ c ∈ ((convert (.table ms) t id).getNode id).children,
        ((convert (.table ms) t id).getNode c).kassign = 2)
    ∧ (∀ es : Elems, ∀ c ∈ ((convert (.array es) t id).getNode id).children,
        ((convert (.array es) t id).getNode c).kassign = 1)
    ∧ (∀ k : Chars, ((stashChild t id k).getNode t.len).val = some Span.null) := by
  refine ⟨?_, ?_, ?_, ?_⟩
  · intro v
    exact (convert_post v t id hid hwf hch).kassign_id
  · intro ms c hc
    have hconv : convert (.table ms) t id
        = convertMembers ms
            (if t.hasKey id then t.toMap id (some (t.keyOf id)) else t.toMap id none) id :=
      rfl
    rw [hconv, table_branch_eq] at hc ⊢
    have hid1 : id < (t.toMap id (t.getNode id).key).len := by
      rw [Tree.toMap_len]; exact hid
    have hwf1 : (t.toMap id (t.getNode id).key).wf :=
      Tree.toMap_wf hwf ((Tree.wf_getNode t id hwf).2.1)
    have MP := convertMembers_post ms (t.toMap id (t.getNode id).key) id hid1 hwf1
    obtain ⟨cs, hnid, hcsr, hcsk, hcse⟩ := MP.node_id
    rw [hnid, Tree.toMap_getNode_self _ _ _ hid] at hc
    simp [hch] at hc
    exact hcsk c hc
  · intro es c hc
    have hconv : convert (.array es) t id
        = convertElems es
            (if t.hasKey id then t.toSeq id (some (t.keyOf id)) else t.toSeq id none) id :=
      rfl
    rw [hconv, seq_branch_eq] at hc ⊢
    have hid1 : id < (t.toSeq id (t.getNode id).key).len := by
      rw [Tree.toSeq_len]; exact hid
    have hwf1 : (t.toSeq id (t.getNode id).key).wf :=
      Tree.toSeq_wf hwf ((Tree.wf_getNode t id hwf).2.1)
    have MP := convertElems_post es (t.toSeq id (t.getNode id).key) id hid1 hwf1
    obtain ⟨cs, hnid, hcsr, hcsk, hcse⟩ := MP.node_id
    rw [hnid, Tree.toSeq_getNode_self _ _ _ hid] at hc
    simp [hch] at hc
    exact hcsk c hc
  · intro k
    rw [stashChild_getNode_cid]

/-- Witness for the amended C5 at the document `{a = [true]}` in a fresh
one-node tree. -/
theorem materialize_kind_reassignment_amended_witness :
    (0 < sampleTree.len ∧ sampleTree.wf ∧ (sampleTree.getNode 0).children = [])
    ∧ (∀ v : TomlValue, ((convert v sampleTree 0).getNode 0).kassign
        = (sampleTree.getNode 0).kassign + 1) :=
  ⟨⟨by decide, by decide, by decide⟩,
    (materialize_kind_reassignment_amended sampleTree 0
      (by decide) (by decide) (by decide)).1⟩

/-- C6: every committed key and scalar value text lives in the destination
tree's arena: the arena only ever grows (pre-existing spans stay valid), and
after materialization every node's key span and value span lies within the
tree's arena — the `Span` type has no way to reference source-owned or
stack-local memory, mirroring that the materializer routes every committed
text through `to_arena`. -/
theorem materialize_arena_ownership (v : TomlValue) (t : Tree) (id : Nat)
    (hid : id < t.len) (hwf : t.wf) (hch : (t.getNode id).children = []) :
    (∃ r, (convert v t id).arena = t.arena ++ r)
    ∧ ∀ n ∈ (convert v t id).nodes,
        spanWF (convert v t id).arena (n.key.getD .null)
        ∧ spanWF (convert v t id).arena (n.val.getD .null) := by
  have CP := convert_post v t id hid hwf hch
  refine ⟨CP.arena_ext, ?_⟩
  intro n hn
  have h := CP.wf n hn
  exact ⟨h.2.1, h.2.2⟩

/-- Witness for C6 at the document `{a = [true]}` in a fresh one-node
tree. -/
theorem materialize_arena_ownership_witness :
    (0 < sampleTree.len ∧ sampleTree.wf ∧ (sampleTree.getNode 0).children = [])
    ∧ ((∃ r, (convert sampleDoc sampleTree 0).arena = sampleTree.arena ++ r)
      ∧ ∀ n ∈ (convert sampleDoc sampleTree 0).nodes,
          spanWF (convert sampleDoc sampleTree 0).arena (n.key.getD .null)
          ∧ spanWF (convert sampleDoc sampleTree 0).arena (n.val.getD .null)) :=
  ⟨⟨by decide, by decide, by decide⟩,
    materialize_arena_ownership sampleDoc sampleTree 0 (by decide) (by decide) (by decide)⟩

/-- C7: a String scalar is written verbatim (no escaping) as the node's
value and the node is tagged with the was-quoted marker (`VAL_DQUO`), for
both keyed and keyless destination nodes: the read-back node carries the
string text unchanged, the was-quoted flag set, and the keyed/keyless
scalar kind according to the pre-existing key. -/
theorem materialize_string_verbatim_dquo (s : Chars) (t : Tree) (id : Nat)
    (hid : id < t.len) (hwf : t.wf) (hch : (t.getNode id).children = [])
    (fuel : Nat) (hfuel : 1 ≤ fuel) :
    (convert (.str s) t id).extract fuel id
      = .node (specScalarKind (t.keyText id)) (t.keyText id) (some s) true [] := by
  have h := (convert_post (.str s) t id hid hwf hch).extract_eq fuel
    (by simpa [heightV] using hfuel)
  rw [h]
  rfl

/-- Witness for C7: the string `"x"` materialized into a node already
keyed `"k"`. -/
theorem materialize_string_verbatim_dquo_witness :
    (0 < sampleKeyed.len ∧ sampleKeyed.wf ∧ (sampleKeyed.getNode 0).children = []
      ∧ 1 ≤ 1)
    ∧ (convert (.str ['x']) sampleKeyed 0).extract 1 0
        = .node (specScalarKind (sampleKeyed.keyText 0)) (sampleKeyed.keyText 0)
            (some ['x']) true [] :=
  ⟨⟨by decide, by decide, by decide, by decide⟩,
    materialize_string_verbatim_dquo ['x'] sampleKeyed 0
      (by decide) (by decide) (by decide) 1 (by decide)⟩

/-- C8: the canonical text committed for a Boolean scalar is exactly the
lowercase literal `true` when the source boolean is true and exactly
`false` when it is false. -/
theorem materialize_boolean_canonical (b : Bool) (t : Tree) (id : Nat)
    (hid : id < t.len) (hwf : t.wf) (hch : (t.getNode id).children = [])
    (fuel : Nat) (hfuel : 1 ≤ fuel) :
    ((convert (.boolean b) t id).extract fuel id).valOf
      = some (if b then "true".data else "false".data) := by
  have h := (convert_post (.boolean b) t id hid hwf hch).extract_eq fuel
    (by simpa [heightV] using hfuel)
  rw [h]
  cases b <;> rfl

/-- Witness for C8: the boolean `false` materialized into a fresh node. -/
theorem materialize_boolean_canonical_witness :
    (0 < sampleTree.len ∧ sampleTree.wf ∧ (sampleTree.getNode 0).children = []
      ∧ 1 ≤ 1)
    ∧ ((convert (.boolean false) sampleTree 0).extract 1 0).valOf
        = some (if false then "true".data else "false".data) :=
  ⟨⟨by decide, by decide, by decide, by decide⟩,
    materialize_boolean_canonical false sampleTree 0
      (by decide) (by decide) (by decide) 1 (by decide)⟩

/-- C9: materializing the same source value twice into two fresh (keyless,
childless) destination nodes — in any two trees — produces two structurally
identical subtrees: same kinds, keys, value texts and child order. -/
theorem materialize_deterministic (v : TomlValue) (t1 t2 : Tree) (id1 id2 : Nat)
    (hid1 : id1 < t1.len) (hwf1 : t1.wf) (hch1 : (t1.getNode id1).children = [])
    (hk1 : (t1.getNode id1).key = none)
    (hid2 : id2 < t2.len) (hwf2 : t2.wf) (hch2 : (t2.getNode id2).children = [])
    (hk2 : (t2.getNode id2).key = none)
    (fuel : Nat) (hfuel : heightV v ≤ fuel) :
    (convert v t1 id1).extract fuel id1 = (convert v t2 id2).extract fuel id2 := by
  have h1 := (convert_post v t1 id1 hid1 hwf1 hch1).extract_eq fuel hfuel
  have h2 := (convert_post v t2 id2 hid2 hwf2 hch2).extract_eq fuel hfuel
  rw [h1, h2, hk1, hk2]
  rfl

/-- Witness for C9: `{a = [true]}` materialized into a fresh one-node tree
and into the second node of a different two-node tree with a non-empty
arena. -/
theorem materialize_deterministic_witness :
    (0 < sampleTree.len ∧ sampleTree.wf ∧ (sampleTree.getNode 0).children = []
      ∧ (sampleTree.getNode 0).key = none
      ∧ 1 < Tree.len { nodes := [TNode.fresh, TNode.fresh], arena := ['z'] }
      ∧ Tree.wf { nodes := [TNode.fresh, TNode.fresh], arena := ['z'] }
      ∧ (Tree.getNode { nodes := [TNode.fresh, TNode.fresh], arena := ['z'] } 1).children = []
      ∧ (Tree.getNode { nodes := [TNode.fresh, TNode.fresh], arena := ['z'] } 1).key = none
      ∧ heightV sampleDoc ≤ 3)
    ∧ (convert sampleDoc sampleTree 0).extract 3 0
        = (convert sampleDoc { nodes := [TNode.fresh, TNode.fresh], arena := ['z'] } 1).extract 3 1 :=
  ⟨⟨by decide, by decide, by decide, by decide, by decide, by decide, by decide, by decide,
      by decide⟩,
    materialize_deterministic sampleDoc sampleTree
      { nodes := [TNode.fresh, TNode.fresh], arena := ['z'] } 0 1
      (by decide) (by decide) (by decide) (by decide)
      (by decide) (by decide) (by decide) (by decide) 3 (by decide)⟩

/-- C10: an empty String (and likewise an empty table key) causes no arena
allocation — `to_arena` returns the tree unchanged with the null span — and
the empty/null text is committed as the value (or key): a keyed empty-string
scalar still becomes a keyed scalar node tagged with the was-quoted flag,
and a table member with the empty key still yields a keyed child whose key
reads back as the empty text. -/
theorem materialize_empty_string (t : Tree) (id : Nat)
    (hid : id < t.len) (hwf : t.wf) (hch : (t.getNode id).children = [])
    (fuel : Nat) (hfuel : 1 ≤ fuel) :
    to_arena t [] = (t, Span.null)
    ∧ (convert (.str []) t id).arena = t.arena
    ∧ (convert (.str []) t id).extract fuel id
        = .node (specScalarKind (t.keyText id)) (t.keyText id) (some []) true []
    ∧ ((convert (.table (.cons [] (.boolean true) .nil)) t id).extract (fuel + 1) id).childrenOf
        = [.node .keyval (some []) (some "true".data) false []] := by
  refine ⟨rfl, ?_, ?_, ?_⟩
  · show ((commitVal t id Span.null).addDquo id).arena = t.arena
    rw [Tree.addDquo_arena, commitVal_arena]
  · have h := (convert_post (.str []) t id hid hwf hch).extract_eq fuel
      (by simpa [heightV] using hfuel)
    rw [h]
    rfl
  · have h := (convert_post (.table (.cons [] (.boolean true) .nil)) t id hid hwf hch).extract_eq
      (fuel + 1) (by simp only [heightV, heightM]; omega)
    rw [h]
    rfl

/-- Witness for C10 at a node already keyed `"k"`. -/
theorem materialize_empty_string_witness :
    (0 < sampleKeyed.len ∧ sampleKeyed.wf ∧ (sampleKeyed.getNode 0).children = []
      ∧ 1 ≤ 1)
    ∧ (to_arena sampleKeyed [] = (sampleKeyed, Span.null)
      ∧ (convert (.str []) sampleKeyed 0).arena = sampleKeyed.arena
      ∧ (convert (.str []) sampleKeyed 0).extract 1 0
          = .node (specScalarKind (sampleKeyed.keyText 0)) (sampleKeyed.keyText 0)
              (some []) true []
      ∧ ((convert (.table (.cons [] (.boolean true) .nil)) sampleKeyed 0).extract (1 + 1) 0).childrenOf
          = [.node .keyval (some []) (some "true".data) false []]) :=
  ⟨⟨by decide, by decide, by decide, by decide⟩,
    materialize_empty_string sampleKeyed 0 (by decide) (by decide) (by decide) 1 (by decide)⟩

end TomlRyml
